import Mathlib

/- A shallow embedding of the line-addressable text buffers of
src/piece_table.py: the ArrayOfStrings baseline and the PieceTable.
Python strings are modelled as lists of characters; Python exceptions are
modelled as error values returned next to the state of the object after the
call, so that partial mutation before an exception stays observable. -/

namespace PieceTableSpec

/-- Document text: a Python string modelled as a list of characters. -/
abbrev Text := List Char

/-- The line terminator character. -/
def nl : Char := '\n'

/-- The Python exceptions the source can raise (ValueError, KeyError,
IndexError, NotImplementedError), together with the RangeError of the spec,
used only by the definitions modelled from the spec. -/
inductive Err where
  | valueError
  | keyError
  | indexError
  | notImplementedError
  | rangeError
  deriving DecidableEq

/-- Member original of the StrEnum Source: its value is the string
"original", and comparisons against it are string comparisons. -/
def Source.original : String := "original"

/-- Member add of the StrEnum Source: its value is the string "add". -/
def Source.add : String := "add"

/-- A piece: source tag (a StrEnum value, hence a string), start offset into
the tagged buffer, and length. -/
structure Piece where
  source : String
  start : Nat
  length : Nat
  deriving DecidableEq

/-- The state of a PieceTable object: original buffer, the line_indexes dict
(its keys are exactly 0, 1, ..., so it is modelled as the list of its values
in key order), the lines counter, the add buffer and the piece list. -/
structure PieceTable where
  original : Text
  line_indexes : List Nat
  lines : Nat
  add : Text
  pieces : List Piece
  deriving DecidableEq

/-- The state of an ArrayOfStrings object: the list of lines. -/
structure ArrayOfStrings where
  data : List Text
  deriving DecidableEq

/-- Lookup in a Python dict whose keys are exactly 0..(d.length - 1), as
line_indexes is; a missing key (negative or too large) raises KeyError,
modelled by none. -/
def dictGet (d : List Nat) (k : Int) : Option Nat :=
  if k < 0 then none else d.get? k.toNat

/-- Python slicing buf[start : start + len] for a nonnegative start: clamps
to the available range and never fails. -/
def bufSlice (buf : Text) (start len : Nat) : Text :=
  (buf.drop start).take len

/-- The normalization prelude shared by the line operations: if the text
does not end with a line terminator, one is appended. -/
def normalizeLine (t : Text) : Text :=
  if t.getLast? = some nl then t else t ++ [nl]

/-- The scan loop of PieceTable.make_line_indexes: for each line terminator
it records the index of the terminator itself (the dict values stored at
keys 1, 2, ...). -/
def make_line_indexes_aux : Text → Nat → List Nat
  | [], _ => []
  | c :: rest, i =>
    if c = nl then i :: make_line_indexes_aux rest (i + 1)
    else make_line_indexes_aux rest (i + 1)

/-- PieceTable.make_line_indexes: returns the dict starting as 0 maps to 0,
extended with, for the k-th terminator, key k mapping to the terminator's
index, together with lines = the number of terminators. -/
def make_line_indexes (data : Text) : List Nat × Nat :=
  (0 :: make_line_indexes_aux data 0, (make_line_indexes_aux data 0).length)

/-- PieceTable._initialize, reached from both the constructor and read_file:
sets the original buffer, builds line_indexes and lines, empties the add
buffer, and creates one piece over the whole original buffer unless the
text is empty. -/
def PieceTable.init (original : Text) : PieceTable :=
  { original := original
    line_indexes := (make_line_indexes original).1
    lines := (make_line_indexes original).2
    add := []
    pieces :=
      if original = [] then [] else [⟨Source.original, 0, original.length⟩] }

/-- The loop shared by PieceTable.write_file and PieceTable.str: resolve
each piece against the buffer its source tag names, appending the slice to
the output; any other source tag raises ValueError. -/
def renderPieces (original add : Text) : List Piece → Text → Except Err Text
  | [], acc => .ok acc
  | p :: rest, acc =>
    if p.source = Source.original then
      renderPieces original add rest (acc ++ bufSlice original p.start p.length)
    else if p.source = Source.add then
      renderPieces original add rest (acc ++ bufSlice add p.start p.length)
    else .error .valueError

/-- PieceTable.str, the serialization of the document (write_file writes
the same text to a file). -/
def PieceTable.str (pt : PieceTable) : Except Err Text :=
  renderPieces pt.original pt.add pt.pieces []

/-- The piece-splice loop of PieceTable.add_line, with np the new piece and
ii the insert_index. Faithful to the source: in the two splice branches the
source does not advance current_index before the next iteration. -/
def add_line_pieces (np : Piece) (ii : Nat) : List Piece → Nat → List Piece
  | [], _ => []
  | p :: rest, current =>
    if current + p.length < ii then
      p :: add_line_pieces np ii rest (current + p.length)
    else if current > ii then
      p :: add_line_pieces np ii rest (current + p.length)
    else if current = ii then
      np :: p :: add_line_pieces np ii rest current
    else
      ⟨p.source, p.start, ii - current⟩ ::
        np ::
          ⟨p.source, p.start + (ii - current), p.length - (ii - current)⟩ ::
            add_line_pieces np ii rest current

/-- PieceTable.add_line. Returns the state of self after the call together
with the exception raised, if any. On the ValueError path nothing has been
mutated yet; on the KeyError path (raised by the line_indexes subscript,
e.g. for a negative line number) the text has already been appended to the
add buffer. On success the source increments self.lines and rebuilds a
local new_line_indexes dict, but never assigns that dict to
self.line_indexes, so line_indexes stays as it was. -/
def PieceTable.add_line (pt : PieceTable) (line_number : Int) (new_line : Text) :
    PieceTable × Option Err :=
  let t := normalizeLine new_line
  if line_number > (pt.lines : Int) then (pt, some .valueError)
  else
    let np : Piece := ⟨Source.add, pt.add.length, t.length⟩
    let pt1 := { pt with add := pt.add ++ t }
    match dictGet pt.line_indexes line_number with
    | none => (pt1, some .keyError)
    | some v =>
      ({ pt1 with
          pieces := add_line_pieces np (v + 1) pt1.pieces 0
          lines := pt1.lines + 1 }, none)

/-- PieceTable.edit_line: the body starts with raise NotImplementedError, so
the call always raises and the state is untouched (the code after the raise
is unreachable, and in fact syntactically incomplete). -/
def PieceTable.edit_line (pt : PieceTable) (_line_number : Int) (_new_line : Text) :
    PieceTable × Option Err :=
  (pt, some .notImplementedError)

/-- Python list item assignment data[i] = x: a negative index counts from
the end; an index out of range raises IndexError. -/
def listSet (l : List Text) (i : Int) (x : Text) : Option (List Text) :=
  let j := if i < 0 then i + l.length else i
  if 0 ≤ j ∧ j < (l.length : Int) then some (l.set j.toNat x) else none

/-- Insertion of an element at a position already clamped into range. -/
def listInsertAt : List Text → Nat → Text → List Text
  | l, 0, x => x :: l
  | [], _ + 1, x => [x]
  | a :: l, j + 1, x => a :: listInsertAt l j x

/-- Python list.insert(i, x): a negative index counts from the end, and the
result is clamped into [0, len], so the call never raises. -/
def listInsert (l : List Text) (i : Int) (x : Text) : List Text :=
  let j := if i < 0 then max 0 (i + l.length) else min i (l.length : Int)
  listInsertAt l j.toNat x

/-- Python list.pop(i): a negative index counts from the end; an index out
of range (in particular on an empty list) raises IndexError. -/
def listPop (l : List Text) (i : Int) : Option (List Text) :=
  let j := if i < 0 then i + l.length else i
  if 0 ≤ j ∧ j < (l.length : Int) then some (l.eraseIdx j.toNat) else none

/-- ArrayOfStrings.edit_line: normalize, then data[line_number] = new_line. -/
def ArrayOfStrings.edit_line (a : ArrayOfStrings) (line_number : Int) (new_line : Text) :
    ArrayOfStrings × Option Err :=
  match listSet a.data line_number (normalizeLine new_line) with
  | some d => (⟨d⟩, none)
  | none => (a, some .indexError)

/-- ArrayOfStrings.add_line: normalize, then data.insert(line_number, ...). -/
def ArrayOfStrings.add_line (a : ArrayOfStrings) (line_number : Int) (new_line : Text) :
    ArrayOfStrings × Option Err :=
  (⟨listInsert a.data line_number (normalizeLine new_line)⟩, none)

/-- ArrayOfStrings.remove_line: data.pop(line_number). -/
def ArrayOfStrings.remove_line (a : ArrayOfStrings) (line_number : Int) :
    ArrayOfStrings × Option Err :=
  match listPop a.data line_number with
  | some d => (⟨d⟩, none)
  | none => (a, some .indexError)

/-- The serialization of ArrayOfStrings (its str method): the concatenation
of the stored lines. -/
def ArrayOfStrings.str (a : ArrayOfStrings) : Text := a.data.flatten

/-- Splitting a text into its lines, with an accumulator holding the
current line read so far in reverse. -/
def linesOfAux : Text → Text → List Text
  | [], acc => if acc = [] then [] else [acc.reverse]
  | c :: rest, acc =>
    if c = nl then (acc.reverse ++ [nl]) :: linesOfAux rest []
    else linesOfAux rest (c :: acc)

/-- The lines of a text: every line keeps its terminator, a final chunk
without a terminator is a line of its own, and the empty text has no
lines. This matches the line notion of the spec (the concrete scenario of
section 8 gives the text of three terminated lines line count 3). -/
def linesOf (t : Text) : List Text := linesOfAux t []

/-- The logical start offset of line n of a text: the total length of the
lines before it. This is the LineIndex convention of the spec. -/
def lineStart (t : Text) (n : Nat) : Nat := (((linesOf t).take n).flatten).length

/-- The offsets at which a line terminator occurs in a text. -/
def nlPositions (t : Text) : List Nat :=
  (List.range t.length).filter fun i => decide (t.get? i = some nl)

/-- Whether every piece of a list carries one of the two legal source tags. -/
def piecesOk (ps : List Piece) : Prop :=
  ∀ p ∈ ps, p.source = Source.original ∨ p.source = Source.add

/-- Modelled from the spec: the split primitive split_at of section 4.2,
which the source file does not contain. Locates the piece containing the
offset by accumulating piece lengths; if the offset falls on a piece
boundary no split occurs; otherwise that piece is replaced by two pieces
covering its two halves, preserving the source tag. -/
def split_at_go (off : Nat) : List Piece → Nat → List Piece
  | [], _ => []
  | p :: rest, acc =>
    if off ≤ acc ∨ acc + p.length ≤ off then
      p :: split_at_go off rest (acc + p.length)
    else
      ⟨p.source, p.start, off - acc⟩ ::
        ⟨p.source, p.start + (off - acc), p.length - (off - acc)⟩ ::
          split_at_go off rest (acc + p.length)

/-- Modelled from the spec: split_at over a whole piece list, starting the
accumulated logical offset at 0. -/
def split_at (pieces : List Piece) (off : Nat) : List Piece :=
  split_at_go off pieces 0

/-- Modelled from the spec: after split_at has been applied at both a and
b, drop the pieces that exactly cover the logical range [a, b)
(remove_line of section 4.2). -/
def dropRange_go (a b : Nat) : List Piece → Nat → List Piece
  | [], _ => []
  | p :: rest, acc =>
    if a ≤ acc ∧ acc + p.length ≤ b then dropRange_go a b rest (acc + p.length)
    else p :: dropRange_go a b rest (acc + p.length)

/-- Modelled from the spec: dropRange over a whole piece list. -/
def dropRange (pieces : List Piece) (a b : Nat) : List Piece :=
  dropRange_go a b pieces 0

/-- Modelled from the spec: the LineIndex update of remove_line in section
4.2 - remove entry n and shift every later entry backward by the width of
the removed line. -/
def removeShift (li : List Nat) (n : Nat) (delta : Nat) : List Nat :=
  li.take n ++ (li.drop (n + 1)).map (· - delta)

/-- The current document text: the serialization, or the empty text on the
(for reachable states impossible) serialization error. -/
def PieceTable.doc (pt : PieceTable) : Text := pt.str.toOption.getD []

/-- Modelled from the spec: PieceTable.remove_line, which is absent from
the source file (only the FileEditor protocol declares the operation).
Following section 4.2: valid n lies in [0, line_count); start is
LineIndex[n] and end is LineIndex[n + 1], or the document length for the
last line, with LineIndex read in the spec convention (the start offset of
each line of the current document); split_at both offsets; drop the pieces
covering [start, end); remove LineIndex entry n, shifting the later
entries backward by end - start; decrement the line count. Fails with
RangeError when n is at least the line count, in particular on an empty
document. -/
def PieceTable.remove_line (pt : PieceTable) (n : Nat) : PieceTable × Option Err :=
  let d := pt.doc
  let lc := (linesOf d).length
  if n ≥ lc then (pt, some .rangeError)
  else
    let s := lineStart d n
    let e := if n + 1 < lc then lineStart d (n + 1) else d.length
    ({ pt with
        pieces := dropRange (split_at (split_at pt.pieces s) e) s e
        line_indexes := removeShift pt.line_indexes n (e - s)
        lines := pt.lines - 1 }, none)

/-- The PieceTable states produced by the operations the source implements:
construction and read_file (both run _initialize) and add_line. -/
inductive Reachable : PieceTable → Prop
  | init (s : Text) : Reachable (PieceTable.init s)
  | add (pt : PieceTable) (n : Int) (t : Text) :
      Reachable pt → Reachable (pt.add_line n t).1

/-- Loading a text gives a piece table that serializes to that very text. -/
theorem PieceTable.str_init (s : Text) : (PieceTable.init s).str = .ok s := by
  by_cases h : s = []
  · subst h; rfl
  · simp [PieceTable.str, PieceTable.init, renderPieces, bufSlice, h]

/-- C1: loading any text T into the piece-table buffer and serializing
yields exactly T, including the empty text, a single line without a
terminator, and multi-line text with or without a trailing terminator. -/
theorem c1_round_trip (s : Text) : (PieceTable.init s).str = .ok s :=
  PieceTable.str_init s

/-- C2: the insertion-shape claim fails on the code. The concrete scenario
of the spec does hold (inserting "x" at line 1 of "a(nl)b(nl)c(nl)" gives
"a(nl)x(nl)b(nl)c(nl)" with line count 4), but inserting at line 0 places
the new line after the first character of the document rather than before
line 0, because add_line computes insert_index as line_indexes[0] + 1 = 1. -/
theorem c2_add_line_zero_misinserts :
    ((PieceTable.init ("a\nb\nc\n".toList)).add_line 0 ("x".toList)).2 = none
    ∧ (((PieceTable.init ("a\nb\nc\n".toList)).add_line 0 ("x".toList)).1.str
        = .ok ("ax\n\nb\nc\n".toList))
    ∧ "ax\n\nb\nc\n".toList ≠ "x\na\nb\nc\n".toList
    ∧ (((PieceTable.init ("a\nb\nc\n".toList)).add_line 1 ("x".toList)).1.str
        = .ok ("a\nx\nb\nc\n".toList))
    ∧ ((PieceTable.init ("a\nb\nc\n".toList)).add_line 1 ("x".toList)).1.lines = 4 := by
  exact ⟨rfl, rfl, by decide, rfl, rfl⟩

/-- C3: the zero-length-piece part of the piece-list invariant fails on the
code. Appending a line at the end of the one-line document "a(nl)" splices
the single original piece into lengths 2 and 0, leaving a zero-length piece
in a nonempty document (the serialized text is still correct). -/
theorem c3_zero_length_piece :
    ((PieceTable.init ("a\n".toList)).add_line 1 ("b".toList)).1.pieces
      = [⟨Source.original, 0, 2⟩, ⟨Source.add, 0, 2⟩, ⟨Source.original, 2, 0⟩]
    ∧ (∃ p ∈ ((PieceTable.init ("a\n".toList)).add_line 1 ("b".toList)).1.pieces,
        p.length = 0)
    ∧ ((PieceTable.init ("a\n".toList)).add_line 1 ("b".toList)).1.str
      = .ok ("a\nb\n".toList)
    ∧ ("a\nb\n".toList : Text) ≠ [] := by
  refine ⟨rfl, ⟨⟨Source.original, 2, 0⟩, ?_, rfl⟩, rfl, ?_⟩ <;> decide

/-- C5: the LineIndex is not updated by add_line. After inserting "x" at
line 1 of "a(nl)b(nl)c(nl)" the line_indexes dict is exactly what load
built, with no entry inserted and no entry shifted, although the stored
line count was incremented: the source builds a new_line_indexes dict but
never assigns it to self.line_indexes. -/
theorem c5_line_index_not_updated :
    ((PieceTable.init ("a\nb\nc\n".toList)).add_line 1 ("x".toList)).1.line_indexes
      = (PieceTable.init ("a\nb\nc\n".toList)).line_indexes
    ∧ ((PieceTable.init ("a\nb\nc\n".toList)).add_line 1 ("x".toList)).1.line_indexes
      = [0, 1, 3, 5]
    ∧ ((PieceTable.init ("a\nb\nc\n".toList)).add_line 1 ("x".toList)).1.lines = 4 := by
  exact ⟨rfl, rfl, rfl⟩

/-- C6: the edit-equivalence law fails on the code. PieceTable.edit_line
raises NotImplementedError on every input, including the valid line number
0 of the three-line document, while on the ArrayOfStrings variant the same
edit does agree with remove_line followed by add_line. -/
theorem c6_edit_line_raises :
    (PieceTable.init ("a\nb\nc\n".toList)).edit_line 0 ("y".toList)
      = (PieceTable.init ("a\nb\nc\n".toList), some Err.notImplementedError)
    ∧ (PieceTable.init ("a\nb\nc\n".toList)).lines = 3
    ∧ (ArrayOfStrings.edit_line ⟨["a\n".toList, "b\n".toList]⟩ 0 ("y".toList)).1
      = ((ArrayOfStrings.remove_line ⟨["a\n".toList, "b\n".toList]⟩ 0).1.add_line
          0 ("y".toList)).1 := by
  exact ⟨rfl, rfl, rfl⟩

/-- C7: the boundary-validation claim fails on the code. On a one-line
ArrayOfStrings document, add_line(2, ...) succeeds by clamping (Python
list.insert never raises) instead of failing; on the piece table a negative
line number raises KeyError rather than the range error; and on the
two-line document "a(nl)b" (no trailing terminator) add_line(2, ...), an
append at line count L = 2, raises ValueError because the stored lines
counter is only 1. -/
theorem c7_boundary_divergence :
    (ArrayOfStrings.add_line ⟨["a\n".toList]⟩ 2 ("x".toList))
      = (⟨["a\n".toList, "x\n".toList]⟩, none)
    ∧ ((PieceTable.init ("a\n".toList)).add_line (-1) ("x".toList)).2
      = some Err.keyError
    ∧ ((PieceTable.init ("a\nb".toList)).add_line 2 ("c".toList)).2
      = some Err.valueError
    ∧ (linesOf ("a\nb".toList)).length = 2 := by
  exact ⟨rfl, rfl, rfl, rfl⟩

/-- C8: atomicity on error fails on the code. add_line(-1, "x") on the
loaded document "a(nl)" raises KeyError at the line_indexes subscript, but
by then the text has already been appended to the add buffer, so the failed
call leaves the document changed. -/
theorem c8_add_buffer_mutated_on_error :
    ((PieceTable.init ("a\n".toList)).add_line (-1) ("x".toList)).2
      = some Err.keyError
    ∧ ((PieceTable.init ("a\n".toList)).add_line (-1) ("x".toList)).1.add
      = "x\n".toList
    ∧ (PieceTable.init ("a\n".toList)).add = []
    ∧ ((PieceTable.init ("a\n".toList)).add_line (-1) ("x".toList)).1
      ≠ PieceTable.init ("a\n".toList) := by
  refine ⟨rfl, rfl, rfl, ?_⟩
  decide

/-- C4: counterexample. After loading "a(nl)b(nl)c(nl)" the index holds 4
entries [0, 1, 3, 5] though the document has 3 lines, and the entry for
line 1 is 1, the offset of the first terminator, not the start offset 2 of
line 1; after loading a text that begins with a terminator the entries
[0, 0] are not strictly increasing. -/
theorem c4_counterexample :
    (make_line_indexes ("a\nb\nc\n".toList)).1 = [0, 1, 3, 5]
    ∧ (linesOf ("a\nb\nc\n".toList)).length = 3
    ∧ (make_line_indexes ("a\nb\nc\n".toList)).1.length
      ≠ (linesOf ("a\nb\nc\n".toList)).length
    ∧ lineStart ("a\nb\nc\n".toList) 1 = 2
    ∧ (make_line_indexes ("a\nb\nc\n".toList)).1.get? 1
      ≠ some (lineStart ("a\nb\nc\n".toList) 1)
    ∧ (make_line_indexes ("\nx".toList)).1 = [0, 0]
    ∧ ¬ List.Pairwise (· < ·) (make_line_indexes ("\nx".toList)).1 := by
  refine ⟨rfl, rfl, ?_, rfl, ?_, rfl, ?_⟩ <;> decide

/-- Serialization never raises over a piece list whose pieces all carry one
of the two legal source tags. -/
theorem renderPieces_ok (o a : Text) :
    ∀ ps : List Piece, piecesOk ps → ∀ acc, ∃ out, renderPieces o a ps acc = .ok out := by
  intro ps
  induction ps with
  | nil => exact fun _ acc => ⟨acc, rfl⟩
  | cons p rest ih =>
    intro h acc
    have hrest : piecesOk rest := fun q hq => h q (List.mem_cons_of_mem p hq)
    rcases h p (List.mem_cons_self p rest) with hs | hs
    · rw [renderPieces, if_pos hs]
      exact ih hrest _
    · have hne : ¬p.source = Source.original := by rw [hs]; decide
      rw [renderPieces, if_neg hne, if_pos hs]
      exact ih hrest _

/-- The splice loop of add_line only ever emits the incoming pieces, the new
piece, and halves of incoming pieces that keep their source tag. -/
theorem add_line_pieces_ok (np : Piece)
    (hnp : np.source = Source.original ∨ np.source = Source.add) (ii : Nat) :
    ∀ ps : List Piece, piecesOk ps → ∀ cur, piecesOk (add_line_pieces np ii ps cur) := by
  intro ps
  induction ps with
  | nil =>
    intro _ cur q hq
    simp [add_line_pieces] at hq
  | cons p rest ih =>
    intro h cur
    have hp := h p (List.mem_cons_self p rest)
    have hrest : piecesOk rest := fun q hq => h q (List.mem_cons_of_mem p hq)
    intro q hq
    simp only [add_line_pieces] at hq
    split_ifs at hq
    · rcases List.mem_cons.mp hq with rfl | hq
      · exact hp
      · exact ih hrest _ q hq
    · rcases List.mem_cons.mp hq with rfl | hq
      · exact hp
      · exact ih hrest _ q hq
    · rcases List.mem_cons.mp hq with rfl | hq
      · exact hnp
      · rcases List.mem_cons.mp hq with rfl | hq
        · exact hp
        · exact ih hrest _ q hq
    · rcases List.mem_cons.mp hq with rfl | hq
      · exact hp
      · rcases List.mem_cons.mp hq with rfl | hq
        · exact hnp
        · rcases List.mem_cons.mp hq with rfl | hq
          · exact hp
          · exact ih hrest _ q hq

/-- Every reachable piece-table state carries only legal source tags. -/
theorem reachable_piecesOk (pt : PieceTable) (h : Reachable pt) : piecesOk pt.pieces := by
  induction h with
  | init s =>
    intro q hq
    simp only [PieceTable.init] at hq
    split at hq
    · simp at hq
    · rw [List.mem_singleton.mp hq]
      exact Or.inl rfl
  | add pt n t _ ih =>
    simp only [PieceTable.add_line]
    split
    · exact ih
    · split
      · exact ih
      · exact add_line_pieces_ok _ (Or.inr rfl) _ _ ih _

/-- C10: the invalid-source branches of serialization are unreachable. In
every state produced by the public operations (construction or read_file,
then any sequence of add_line calls) all pieces carry the tag original or
add, so serialization returns a value and never raises ValueError. -/
theorem c10_serialize_never_invalid_source (pt : PieceTable) (h : Reachable pt) :
    ∃ out, pt.str = .ok out :=
  renderPieces_ok pt.original pt.add pt.pieces (reachable_piecesOk pt h) []

/-- C10 witness: a concrete reachable state, after a load and one insertion,
serializes without an invalid-source error. -/
theorem c10_serialize_never_invalid_source_witness :
    ∃ out, ((PieceTable.init ("a\n".toList)).add_line 0 ("x".toList)).1.str = .ok out :=
  c10_serialize_never_invalid_source _ (Reachable.add _ 0 _ (Reachable.init _))

/-- The scan of make_line_indexes started at offset i records exactly the
line-terminator positions of the text, each shifted by i. -/
theorem make_line_indexes_aux_eq (t : Text) :
    ∀ i, make_line_indexes_aux t i = (nlPositions t).map (· + i) := by
  induction t with
  | nil => intro i; rfl
  | cons c rest ih =>
    intro i
    have hmm : ∀ P : List Nat, (P.map Nat.succ).map (· + i) = P.map (· + (i + 1)) := by
      intro P
      rw [List.map_map]
      refine List.map_congr_left fun a _ => ?_
      simp only [Function.comp_apply]
      omega
    simp only [nlPositions, List.length_cons, List.range_succ_eq_map, List.filter_cons,
      List.get?_cons_zero, List.filter_map, List.get?_cons_succ, Function.comp_def]
    by_cases hc : c = nl
    · simp only [make_line_indexes_aux, if_pos hc, hc, ih, decide_eq_true_eq,
        Option.some.injEq, if_pos rfl, if_true, List.map_cons, Nat.zero_add]
      rw [← nlPositions, hmm]
    · have hd : ¬(some c = some nl) := by
        intro hcon
        exact hc (Option.some.injEq c nl ▸ hcon)
      simp only [make_line_indexes_aux, if_neg hc, ih, decide_eq_true_eq, if_neg hd]
      rw [← nlPositions, hmm]

/-- C4 amended: after load, the line index is 0 followed by the offsets of
the line terminators themselves in strictly increasing order (entry k, for
k at least 1, sits one position before the start of line k rather than at
it), the entry count is the number of terminators plus one, and the stored
line count equals the number of terminators. -/
theorem c4_line_index_characterization (t : Text) :
    make_line_indexes t = (0 :: nlPositions t, (nlPositions t).length)
    ∧ List.Pairwise (· < ·) (nlPositions t) := by
  constructor
  · have h0 : (nlPositions t).map (· + 0) = nlPositions t := by simp
    unfold make_line_indexes
    rw [make_line_indexes_aux_eq t 0, h0]
  · exact (List.pairwise_lt_range t.length).filter _

/-- Removing the last element of a nonempty-tailed cons list. -/
theorem dropLast_cons_ne {α : Type _} (a : α) (l : List α) (h : l ≠ []) :
    (a :: l).dropLast = a :: l.dropLast := by
  cases l with
  | nil => exact absurd rfl h
  | cons b m => rfl

/-- dropLast distributes over an append with a nonempty right part. -/
theorem dropLast_append_ne {α : Type _} (A B : List α) (h : B ≠ []) :
    (A ++ B).dropLast = A ++ B.dropLast := by
  induction A with
  | nil => rfl
  | cons a A2 ih =>
    rw [List.cons_append, dropLast_cons_ne a (A2 ++ B) (by simp [h]), ih, List.cons_append]

/-- The lines produced by the scan concatenate back to the remaining input,
prefixed by the accumulated partial line. -/
theorem linesOfAux_flatten (t : Text) :
    ∀ acc, (linesOfAux t acc).flatten = acc.reverse ++ t := by
  induction t with
  | nil =>
    intro acc
    by_cases h : acc = []
    · subst h; rfl
    · simp [linesOfAux, h]
  | cons c rest ih =>
    intro acc
    by_cases h : c = nl
    · simp [linesOfAux, h, ih]
    · simp [linesOfAux, h, ih]

/-- The lines of a text concatenate back to the text. -/
theorem linesOf_flatten (t : Text) : (linesOf t).flatten = t := by
  simpa using linesOfAux_flatten t []

/-- The scan splits off the first line at the first terminator. -/
theorem linesOfAux_split (m : Text) (hm : nl ∉ m) :
    ∀ (t acc : Text), linesOfAux (m ++ nl :: t) acc
      = (acc.reverse ++ m ++ [nl]) :: linesOfAux t [] := by
  induction m with
  | nil => intro t acc; simp [linesOfAux]
  | cons c m2 ih =>
    intro t acc
    have hc : ¬c = nl := fun h => hm (by rw [h]; exact List.mem_cons_self nl m2)
    have hm2 : nl ∉ m2 := fun h => hm (List.mem_cons_of_mem c h)
    simp only [List.cons_append, linesOfAux, if_neg hc, List.append_eq]
    rw [ih hm2 t (c :: acc)]
    simp

/-- linesOf splits off a first terminated line. -/
theorem linesOf_split (m t : Text) (hm : nl ∉ m) :
    linesOf (m ++ nl :: t) = (m ++ [nl]) :: linesOf t := by
  simpa [linesOf] using linesOfAux_split m hm t []

/-- On terminator-free input the scan yields the single remaining line, or
nothing when there is nothing left. -/
theorem linesOfAux_no_nl :
    ∀ t : Text, nl ∉ t →
      ∀ acc, linesOfAux t acc
        = if acc.reverse ++ t = [] then [] else [acc.reverse ++ t] := by
  intro t
  induction t with
  | nil =>
    intro _ acc
    simp [linesOfAux, List.reverse_eq_nil_iff]
  | cons c rest ih =>
    intro h acc
    have hc : ¬c = nl := fun h2 => h (by rw [h2]; exact List.mem_cons_self nl rest)
    have hr : nl ∉ rest := fun h2 => h (List.mem_cons_of_mem c h2)
    rw [linesOfAux, if_neg hc, ih hr (c :: acc)]
    have h1 : (c :: acc).reverse ++ rest ≠ [] := by simp
    have h2 : acc.reverse ++ c :: rest ≠ [] := by simp
    rw [if_neg h1, if_neg h2]
    simp

/-- A nonempty terminator-free text is a single line. -/
theorem linesOf_no_nl (t : Text) (ht : nl ∉ t) (hne : t ≠ []) : linesOf t = [t] := by
  have h := linesOfAux_no_nl t ht []
  simpa [linesOf, hne] using h

/-- Every line the scan produces is nonempty. -/
theorem linesOfAux_ne_nil :
    ∀ (t : Text), ∀ acc, ∀ x ∈ linesOfAux t acc, x ≠ [] := by
  intro t
  induction t with
  | nil =>
    intro acc x hx
    by_cases h : acc = []
    · simp [linesOfAux, h] at hx
    · simp only [linesOfAux, if_neg h, List.mem_singleton] at hx
      subst hx
      simp [h]
  | cons c rest ih =>
    intro acc x hx
    by_cases h : c = nl
    · simp only [linesOfAux, if_pos h] at hx
      rcases List.mem_cons.mp hx with rfl | hx
      · simp
      · exact ih [] x hx
    · simp only [linesOfAux, if_neg h] at hx
      exact ih (c :: acc) x hx

/-- No line the scan produces has an interior terminator, provided the
accumulator has none. -/
theorem linesOfAux_no_inner :
    ∀ (t acc : Text), nl ∉ acc → ∀ x ∈ linesOfAux t acc, nl ∉ x.dropLast := by
  intro t
  induction t with
  | nil =>
    intro acc hacc x hx
    by_cases h : acc = []
    · simp [linesOfAux, h] at hx
    · simp only [linesOfAux, if_neg h, List.mem_singleton] at hx
      subst hx
      intro hmem
      exact hacc (List.mem_reverse.mp (List.dropLast_subset acc.reverse hmem))
  | cons c rest ih =>
    intro acc hacc x hx
    by_cases h : c = nl
    · simp only [linesOfAux, if_pos h] at hx
      rcases List.mem_cons.mp hx with rfl | hx
      · rw [List.dropLast_concat]
        intro hmem
        exact hacc (List.mem_reverse.mp hmem)
      · exact ih [] (by simp) x hx
    · simp only [linesOfAux, if_neg h] at hx
      refine ih (c :: acc) ?_ x hx
      intro hmem
      rcases List.mem_cons.mp hmem with h2 | h2
      · exact h h2.symm
      · exact hacc h2

/-- Every line the scan produces, except possibly the last, ends with the
terminator. -/
theorem linesOfAux_dropLast_ends :
    ∀ (t acc : Text), ∀ x ∈ (linesOfAux t acc).dropLast, x.getLast? = some nl := by
  intro t
  induction t with
  | nil =>
    intro acc x hx
    by_cases h : acc = [] <;> simp [linesOfAux, h] at hx
  | cons c rest ih =>
    intro acc x hx
    by_cases h : c = nl
    · simp only [linesOfAux, if_pos h] at hx
      rcases hr : linesOfAux rest [] with _ | ⟨y, ys⟩
      · rw [hr] at hx
        simp at hx
      · rw [hr, dropLast_cons_ne _ _ (List.cons_ne_nil y ys)] at hx
        rcases List.mem_cons.mp hx with rfl | hx
        · exact List.getLast?_concat _
        · refine ih [] x ?_
          rw [hr]
          exact hx
    · simp only [linesOfAux, if_neg h] at hx
      exact ih (c :: acc) x hx

/-- A list of nonempty lines without interior terminators, all of which but
possibly the last end with the terminator, is recovered by linesOf from its
concatenation. -/
theorem linesOf_flatten_of (l : List Text)
    (h1 : ∀ x ∈ l, x ≠ []) (h2 : ∀ x ∈ l, nl ∉ x.dropLast)
    (h3 : ∀ x ∈ l.dropLast, x.getLast? = some nl) :
    linesOf l.flatten = l := by
  induction l with
  | nil => rfl
  | cons x rest ih =>
    have hx1 := h1 x (List.mem_cons_self x rest)
    have hx2 := h2 x (List.mem_cons_self x rest)
    by_cases hr : rest = []
    · subst hr
      simp only [List.flatten_cons, List.flatten_nil, List.append_nil]
      rcases hlast : x.getLast? with _ | c
      · exact absurd (List.getLast?_eq_none_iff.mp hlast) hx1
      · by_cases hc : c = nl
        · subst hc
          have hdecomp : x.dropLast ++ [nl] = x :=
            List.dropLast_append_getLast? nl (Option.mem_def.mpr hlast)
          rw [← hdecomp, linesOf_split _ _ hx2]
          rfl
        · have hnin : nl ∉ x := by
            intro hmem
            have hdecomp : x.dropLast ++ [c] = x :=
              List.dropLast_append_getLast? c (Option.mem_def.mpr hlast)
            rw [← hdecomp] at hmem
            rcases List.mem_append.mp hmem with hm | hm
            · exact hx2 hm
            · exact hc (List.mem_singleton.mp hm).symm
          exact linesOf_no_nl x hnin hx1
    · have hxd : x ∈ (x :: rest).dropLast := by
        rw [dropLast_cons_ne x rest hr]
        exact List.mem_cons_self x rest.dropLast
      have hlast := h3 x hxd
      have hdecomp : x.dropLast ++ [nl] = x :=
        List.dropLast_append_getLast? nl (Option.mem_def.mpr hlast)
      have hflat : (x :: rest).flatten = x.dropLast ++ nl :: rest.flatten := by
        conv_lhs => rw [List.flatten_cons, ← hdecomp]
        rw [List.append_assoc, List.singleton_append]
      rw [hflat, linesOf_split _ _ hx2, hdecomp]
      congr 1
      refine ih (fun y hy => h1 y (List.mem_cons_of_mem x hy))
        (fun y hy => h2 y (List.mem_cons_of_mem x hy)) (fun y hy => ?_)
      refine h3 y ?_
      rw [dropLast_cons_ne x rest hr]
      exact List.mem_cons_of_mem x hy

/-- Every line of a text is nonempty. -/
theorem linesOf_mem_ne_nil (t : Text) : ∀ x ∈ linesOf t, x ≠ [] :=
  linesOfAux_ne_nil t []

/-- No line of a text has an interior terminator. -/
theorem linesOf_mem_no_inner (t : Text) : ∀ x ∈ linesOf t, nl ∉ x.dropLast :=
  linesOfAux_no_inner t [] (by simp)

/-- Every line of a text but possibly the last ends with the terminator. -/
theorem linesOf_dropLast_ends (t : Text) :
    ∀ x ∈ (linesOf t).dropLast, x.getLast? = some nl :=
  linesOfAux_dropLast_ends t []

/-- A prefix shorter than the whole list sits inside dropLast. -/
theorem take_subset_dropLast {α : Type _} (l : List α) (n : Nat) (hn : n + 1 ≤ l.length) :
    l.take n ⊆ l.dropLast := by
  intro x hx
  have ht : l.take n = l.dropLast.take n := by
    rw [List.dropLast_eq_take, List.take_take]
    congr 1
    omega
  rw [ht] at hx
  exact List.take_subset n l.dropLast hx

/-- dropLast commutes with drop. -/
theorem dropLast_drop_comm {α : Type _} (l : List α) (k : Nat) :
    (l.drop k).dropLast = l.dropLast.drop k := by
  rw [List.dropLast_eq_take, List.dropLast_eq_take, List.drop_take, List.length_drop]
  congr 1
  omega

/-- Erasing an entry keeps all remaining non-final elements non-final. -/
theorem dropLast_eraseIdx_subset {α : Type _} (l : List α) (n : Nat) (hn : n < l.length) :
    (l.eraseIdx n).dropLast ⊆ l.dropLast := by
  rw [List.eraseIdx_eq_take_drop_succ]
  by_cases hd : l.drop (n + 1) = []
  · rw [hd, List.append_nil]
    intro x hx
    exact take_subset_dropLast l n hn (List.dropLast_subset _ hx)
  · rw [dropLast_append_ne _ _ hd]
    intro x hx
    rcases List.mem_append.mp hx with hx | hx
    · exact take_subset_dropLast l n hn hx
    · rw [dropLast_drop_comm] at hx
      exact List.drop_subset _ _ hx

/-- Serialization of the pieces left by the remove-line splice over a
freshly loaded buffer: splitting a single original piece at a and at b and
dropping the range [a, b) serializes to the text with [a, b) cut out. -/
theorem render_splice (s ad : Text) (a b : Nat) (h1 : a < b) (h2 : b ≤ s.length) :
    renderPieces s ad
      (dropRange (split_at (split_at [⟨Source.original, 0, s.length⟩] a) b) a b) []
      = .ok (s.take a ++ s.drop b) := by
  have f3 : (s.drop b).take (s.length - b) = s.drop b := by
    rw [← List.length_drop b s]
    exact List.take_length _
  by_cases ha : a = 0
  · subst ha
    by_cases hb : b = s.length
    · subst hb
      have e1 : split_at [⟨Source.original, 0, s.length⟩] 0
          = [⟨Source.original, 0, s.length⟩] := by
        simp [split_at, split_at_go]
      have e2 : split_at [⟨Source.original, 0, s.length⟩] s.length
          = [⟨Source.original, 0, s.length⟩] := by
        simp [split_at, split_at_go]
      have e3 : dropRange [⟨Source.original, 0, s.length⟩] 0 s.length = [] := by
        simp [dropRange, dropRange_go]
      rw [e1, e2, e3]
      simp [renderPieces, List.drop_length]
    · have hblt : b < s.length := lt_of_le_of_ne h2 hb
      have e1 : split_at [⟨Source.original, 0, s.length⟩] 0
          = [⟨Source.original, 0, s.length⟩] := by
        simp [split_at, split_at_go]
      have hcond : ¬(b ≤ 0 ∨ 0 + s.length ≤ b) := by omega
      have e2 : split_at [⟨Source.original, 0, s.length⟩] b
          = [⟨Source.original, 0, b⟩, ⟨Source.original, b, s.length - b⟩] := by
        simp [split_at, split_at_go, hcond]
        omega
      have hc2 : ¬(b + (s.length - b) ≤ b) := by omega
      have e3 : dropRange [⟨Source.original, 0, b⟩, ⟨Source.original, b, s.length - b⟩]
          0 b = [⟨Source.original, b, s.length - b⟩] := by
        simp [dropRange, dropRange_go, hc2]
      rw [e1, e2, e3]
      simp [renderPieces, bufSlice, f3]
  · have hapos : 0 < a := Nat.pos_of_ne_zero ha
    have halt : a < s.length := lt_of_lt_of_le h1 h2
    have hcond : ¬(a ≤ 0 ∨ 0 + s.length ≤ a) := by omega
    have e1 : split_at [⟨Source.original, 0, s.length⟩] a
        = [⟨Source.original, 0, a⟩, ⟨Source.original, a, s.length - a⟩] := by
      simp [split_at, split_at_go, hcond]
      omega
    have fa : a + (s.length - a) = s.length := by omega
    by_cases hb : b = s.length
    · subst hb
      have e2 : split_at [⟨Source.original, 0, a⟩, ⟨Source.original, a, s.length - a⟩]
          s.length = [⟨Source.original, 0, a⟩, ⟨Source.original, a, s.length - a⟩] := by
        have hk1 : 0 + a ≤ s.length := by omega
        have hk2 : a + (s.length - a) ≤ s.length := by omega
        simp [split_at, split_at_go, hk1, hk2]
        exact fun _ => le_of_lt halt
      have e3 : dropRange [⟨Source.original, 0, a⟩, ⟨Source.original, a, s.length - a⟩]
          a s.length = [⟨Source.original, 0, a⟩] := by
        have hk3 : ¬(a ≤ 0) := by omega
        have hk4 : a + (s.length - a) ≤ s.length := by omega
        simp [dropRange, dropRange_go, hk3, hk4]
      rw [e1, e2, e3]
      simp [renderPieces, bufSlice, List.drop_length]
    · have hblt : b < s.length := lt_of_le_of_ne h2 hb
      have fb : a + (b - a) = b := by omega
      have fc : s.length - a - (b - a) = s.length - b := by omega
      have e2 : split_at [⟨Source.original, 0, a⟩, ⟨Source.original, a, s.length - a⟩] b
          = [⟨Source.original, 0, a⟩, ⟨Source.original, a, b - a⟩,
              ⟨Source.original, b, s.length - b⟩] := by
        have hab : a ≤ b := le_of_lt h1
        have hba : ¬b ≤ a := by omega
        have hnb : ¬(a + (s.length - a) ≤ b) := by omega
        simp [split_at, split_at_go, hab, hba, hnb, fb, fc]
      have e3 : dropRange [⟨Source.original, 0, a⟩, ⟨Source.original, a, b - a⟩,
          ⟨Source.original, b, s.length - b⟩] a b = [⟨Source.original, 0, a⟩,
          ⟨Source.original, b, s.length - b⟩] := by
        have hk3 : ¬(a ≤ 0) := by omega
        have hk4 : a + (b - a) ≤ b := by omega
        have hk5 : ¬(b + (s.length - b) ≤ b) := by omega
        simp [dropRange, dropRange_go, hk3, hk4, hk5, fb]
      rw [e1, e2, e3]
      simp [renderPieces, bufSlice, f3]

/-- C9: removal shape in both variants. For the ArrayOfStrings baseline,
remove_line at a valid index succeeds and leaves exactly the other lines in
their order. For the piece-table buffer (remove_line modelled from the
spec, as the source does not implement it), removing a valid line n of a
loaded document succeeds, the result serializes to the concatenation of
the remaining lines in order, and that text has exactly those lines - so
the line count drops by one and every other line is unchanged. -/
theorem c9_remove_line_shape (a : List Text) (m : Nat) (s : Text) (n : Nat)
    (hm : m < a.length) (hn : n < (linesOf s).length) :
    (ArrayOfStrings.remove_line ⟨a⟩ (m : Int)).2 = none
    ∧ (ArrayOfStrings.remove_line ⟨a⟩ (m : Int)).1.data = a.eraseIdx m
    ∧ ((PieceTable.init s).remove_line n).2 = none
    ∧ ((PieceTable.init s).remove_line n).1.str = .ok ((linesOf s).eraseIdx n).flatten
    ∧ linesOf (((linesOf s).eraseIdx n).flatten) = (linesOf s).eraseIdx n := by
  have hpop : listPop a (m : Int) = some (a.eraseIdx m) := by
    simp only [listPop]
    rw [if_neg (by omega : ¬(m : Int) < 0)]
    have hc : (0 : Int) ≤ (m : Int) ∧ (m : Int) < (a.length : Int) := by
      constructor
      · omega
      · exact_mod_cast hm
    rw [if_pos hc, Int.toNat_natCast]
  have hsne : s ≠ [] := by
    intro h
    rw [h] at hn
    simp [linesOf, linesOfAux] at hn
  have hdoc : (PieceTable.init s).doc = s := by
    unfold PieceTable.doc
    rw [PieceTable.str_init]
    rfl
  have hflat : (linesOf s).flatten = s := linesOf_flatten s
  have hsplitflat : ∀ k, ((linesOf s).take k).flatten ++ ((linesOf s).drop k).flatten = s := by
    intro k
    rw [← List.flatten_append, List.take_append_drop, hflat]
  have hElen : (if n + 1 < (linesOf s).length then lineStart s (n + 1) else s.length)
      = ((linesOf s).take (n + 1)).flatten.length := by
    by_cases h : n + 1 < (linesOf s).length
    · rw [if_pos h]
      rfl
    · rw [if_neg h]
      rw [List.take_of_length_le (by omega), hflat]
  have hln : (linesOf s).take (n + 1)
      = (linesOf s).take n ++ [(linesOf s).get ⟨n, hn⟩] := by
    rw [List.take_succ, List.getElem?_eq_getElem hn]
    rfl
  have hab : ((linesOf s).take n).flatten.length
      < ((linesOf s).take (n + 1)).flatten.length := by
    rw [hln, List.flatten_append, List.length_append]
    have hx : (linesOf s).get ⟨n, hn⟩ ≠ [] :=
      linesOf_mem_ne_nil s _ (List.get_mem _ _ _)
    have hpos : 0 < ((linesOf s).get ⟨n, hn⟩).length := List.length_pos.mpr hx
    have hfl : ([(linesOf s).get ⟨n, hn⟩] : List Text).flatten
        = (linesOf s).get ⟨n, hn⟩ := by simp
    rw [hfl]
    omega
  have hble : ((linesOf s).take (n + 1)).flatten.length ≤ s.length := by
    conv_rhs => rw [← hsplitflat (n + 1)]
    rw [List.length_append]
    omega
  have htake : s.take (((linesOf s).take n).flatten.length) = ((linesOf s).take n).flatten := by
    have h := List.take_left (((linesOf s).take n).flatten) (((linesOf s).drop n).flatten)
    rwa [hsplitflat n] at h
  have hdrop : s.drop (((linesOf s).take (n + 1)).flatten.length)
      = ((linesOf s).drop (n + 1)).flatten := by
    have h := List.drop_left (((linesOf s).take (n + 1)).flatten)
      (((linesOf s).drop (n + 1)).flatten)
    rwa [hsplitflat (n + 1)] at h
  have herase : ((linesOf s).eraseIdx n).flatten
      = ((linesOf s).take n).flatten ++ ((linesOf s).drop (n + 1)).flatten := by
    rw [List.eraseIdx_eq_take_drop_succ, List.flatten_append]
  have hsub : ∀ x ∈ (linesOf s).eraseIdx n, x ∈ linesOf s :=
    fun x hx => (List.eraseIdx_sublist (linesOf s) n).subset hx
  refine ⟨?_, ?_, ?_, ?_, ?_⟩
  · simp [ArrayOfStrings.remove_line, hpop]
  · simp [ArrayOfStrings.remove_line, hpop]
  · simp only [PieceTable.remove_line, hdoc]
    rw [if_neg (by omega : ¬n ≥ (linesOf s).length)]
  · simp only [PieceTable.remove_line, hdoc]
    rw [if_neg (by omega : ¬n ≥ (linesOf s).length)]
    simp only [PieceTable.str, PieceTable.init]
    rw [if_neg hsne, hElen]
    have hAA : lineStart s n = ((linesOf s).take n).flatten.length := rfl
    rw [hAA, render_splice s [] _ _ hab hble, htake, hdrop, herase]
  · refine linesOf_flatten_of _ (fun x hx => linesOf_mem_ne_nil s x (hsub x hx))
      (fun x hx => linesOf_mem_no_inner s x (hsub x hx)) (fun x hx => ?_)
    exact linesOf_dropLast_ends s x (dropLast_eraseIdx_subset (linesOf s) n hn hx)

/-- C9 witness: removing line 1 of a concrete three-line list and of the
loaded three-line document "a(nl)b(nl)c(nl)". -/
theorem c9_remove_line_shape_witness :
    (1 < (["a\n".toList, "b\n".toList, "c\n".toList] : List Text).length
      ∧ 1 < (linesOf ("a\nb\nc\n".toList)).length)
    ∧ ((ArrayOfStrings.remove_line ⟨["a\n".toList, "b\n".toList, "c\n".toList]⟩
          (1 : Nat)).2 = none
      ∧ (ArrayOfStrings.remove_line ⟨["a\n".toList, "b\n".toList, "c\n".toList]⟩
          (1 : Nat)).1.data = (["a\n".toList, "b\n".toList, "c\n".toList] : List Text).eraseIdx 1
      ∧ ((PieceTable.init ("a\nb\nc\n".toList)).remove_line 1).2 = none
      ∧ ((PieceTable.init ("a\nb\nc\n".toList)).remove_line 1).1.str
          = .ok ((linesOf ("a\nb\nc\n".toList)).eraseIdx 1).flatten
      ∧ linesOf (((linesOf ("a\nb\nc\n".toList)).eraseIdx 1).flatten)
          = (linesOf ("a\nb\nc\n".toList)).eraseIdx 1) :=
  ⟨⟨by decide, by decide⟩,
    c9_remove_line_shape ["a\n".toList, "b\n".toList, "c\n".toList] 1
      ("a\nb\nc\n".toList) 1 (by decide) (by decide)⟩

end PieceTableSpec
